import Mathlib

/-!
Verification of the kindle-ocr text post-processing pipeline
(`src/kindle_to_pdf/ocr.py` and `src/kindle_to_pdf/main.py`).

Python strings are modelled as `List Char`; floating point coordinates and
confidences are modelled as exact rationals; the external OCR capability is
modelled by passing its (possibly failing) result explicitly as an
`Option (List OcrResult)`.
-/

attribute [local semireducible] Rat.ofScientific Rat.add Rat.sub Rat.mul Rat.inv

/-! ### Python character/string semantics -/

/-- Characters matched by Python's regex class `\s` (and stripped by
`str.strip()`): ASCII whitespace plus the Unicode White_Space code points. -/
def isPySpace (c : Char) : Bool :=
  let n := c.toNat
  decide ((9 ≤ n ∧ n ≤ 13) ∨ n = 32 ∨ (28 ≤ n ∧ n ≤ 31) ∨ n = 0x85 ∨ n = 0xA0 ∨
    n = 0x1680 ∨ (0x2000 ≤ n ∧ n ≤ 0x200A) ∨ n = 0x2028 ∨ n = 0x2029 ∨
    n = 0x202F ∨ n = 0x205F ∨ n = 0x3000)

/-- The character class `_JP_CHARS` of `ocr.py`:
`぀-ゟ゠-ヿ一-鿿㐀-䶿＀-￯　-〿`. -/
def isJapaneseChar (c : Char) : Bool :=
  let n := c.toNat
  decide ((0x3040 ≤ n ∧ n ≤ 0x309F) ∨ (0x30A0 ≤ n ∧ n ≤ 0x30FF) ∨
    (0x4E00 ≤ n ∧ n ≤ 0x9FFF) ∨ (0x3400 ≤ n ∧ n ≤ 0x4DBF) ∨
    (0xFF00 ≤ n ∧ n ≤ 0xFFEF) ∨ (0x3000 ≤ n ∧ n ≤ 0x303F))

/-- Python `str.strip()`: remove leading and trailing whitespace. -/
def pyStrip (l : List Char) : List Char :=
  ((l.dropWhile isPySpace).reverse.dropWhile isPySpace).reverse

/-- Python `text.split("\n")`. -/
def splitNL : List Char → List (List Char)
  | [] => [[]]
  | c :: rest =>
    if c = '\n' then [] :: splitNL rest
    else
      match splitNL rest with
      | [] => [[c]]
      | h :: t => (c :: h) :: t

/-- Python `"\n".join(parts)`. -/
def joinNL : List (List Char) → List Char
  | [] => []
  | [p] => p
  | p :: q :: rest => p ++ '\n' :: joinNL (q :: rest)

/-! ### The `_JAPANESE_SPACING_PATTERN` regex

`ocr.py` removes whitespace via `re.sub` with pattern
`(?<=[JP])\s+(?=[JP])`.  `removeSpacesAux` models `re.sub` scanning:
at each position with the original previous character as lookbehind, the
engine greedily matches a whitespace run `\s+`, backtracking until the
lookahead character is in the class, then resumes after the match. -/

/-- Lookbehind test: the previous character exists and is in the class. -/
def prevIsJP : Option Char → Bool
  | some p => isJapaneseChar p
  | none => false

/-- Length of the `\s+(?=[JP])` match starting at the head of `l`
(longest whitespace prefix whose following character is in the class,
with greedy backtracking), or `none` when no length in `1..k` works. -/
def wsMatchLen (l : List Char) : Option Nat :=
  let k := (l.takeWhile isPySpace).length
  (List.range k).reverse.findSome? (fun i =>
    match l[i + 1]? with
    | some c => if isJapaneseChar c then some (i + 1) else none
    | none => none)

/-- The `re.sub` scan of `_JAPANESE_SPACING_PATTERN.sub("", text)`:
`prev` is the character before the current position in the original text.
The scan consumes at least one character per step, so it is phrased with a
step counter (`fuel`) to keep the recursion structural; `fuel = length` is
always sufficient (`removeSpacesAux_fuel`). -/
def removeSpacesAux : Nat → Option Char → List Char → List Char
  | _, _, [] => []
  | 0, _, l => l
  | fuel + 1, prev, c :: rest =>
    if prevIsJP prev then
      match wsMatchLen (c :: rest) with
      | some m => removeSpacesAux fuel (c :: rest)[m - 1]? (rest.drop (m - 1))
      | none => c :: removeSpacesAux fuel (some c) rest
    else
      c :: removeSpacesAux fuel (some c) rest

/-- `_remove_japanese_spaces` of `ocr.py`. -/
def remove_japanese_spaces (text : List Char) : List Char :=
  removeSpacesAux text.length none text

/-! ### Line-break heuristics (`ocr.py` regex constants) -/

/-- `_BULLET_PATTERN` character class. -/
def BULLET_CHARS : List Char :=
  ['・', '･', '●', '■', '▶', '▷', '◆', '◇', '○', '◎', '★', '☆', '-', '‐', '－', '―']

/-- Prefix match of `_BULLET_PATTERN` (`^[...]+`). -/
def bulletMatch : List Char → Bool
  | [] => false
  | c :: _ => BULLET_CHARS.contains c

def isAsciiDigit (c : Char) : Bool := decide ('0' ≤ c ∧ c ≤ '9')

/-- Alternative `[0-9]+[\.\-][0-9]*` of `_NUMBERED_PATTERN` (prefix match,
so the trailing `[0-9]*` constrains nothing). -/
def numberedDigits (s : List Char) : Bool :=
  let ds := s.takeWhile isAsciiDigit
  decide (ds ≠ []) &&
    match s.drop ds.length with
    | c :: _ => decide (c = '.' ∨ c = '-')
    | [] => false

/-- Alternative `\([0-9]+\)` of `_NUMBERED_PATTERN`. -/
def numberedParen (s : List Char) : Bool :=
  match s with
  | '(' :: rest =>
    let ds := rest.takeWhile isAsciiDigit
    decide (ds ≠ []) &&
      match rest.drop ds.length with
      | ')' :: _ => true
      | _ => false
  | _ => false

def CIRCLED_NUMS : List Char :=
  ['①', '②', '③', '④', '⑤', '⑥', '⑦', '⑧', '⑨', '⑩',
   '⑪', '⑫', '⑬', '⑭', '⑮', '⑯', '⑰', '⑱', '⑲', '⑳']

def ROMAN_NUMS : List Char :=
  ['ⅰ', 'ⅱ', 'ⅲ', 'ⅳ', 'ⅴ', 'ⅵ', 'ⅶ', 'ⅷ', 'ⅸ', 'ⅹ']

def headIn (cs : List Char) : List Char → Bool
  | [] => false
  | c :: _ => cs.contains c

/-- Alternative `[a-z]\)` of `_NUMBERED_PATTERN`. -/
def lowerParen : List Char → Bool
  | c :: ')' :: _ => decide ('a' ≤ c ∧ c ≤ 'z')
  | _ => false

/-- Alternative `[A-Z]\.` of `_NUMBERED_PATTERN`. -/
def upperDot : List Char → Bool
  | c :: '.' :: _ => decide ('A' ≤ c ∧ c ≤ 'Z')
  | _ => false

/-- Prefix match of `_NUMBERED_PATTERN`. -/
def numberedMatch (s : List Char) : Bool :=
  numberedDigits s || numberedParen s || headIn CIRCLED_NUMS s ||
    headIn ROMAN_NUMS s || lowerParen s || upperDot s

/-- ASCII lowering, modelling `re.IGNORECASE` comparison. -/
def lowerAscii (c : Char) : Char :=
  if 'A' ≤ c ∧ c ≤ 'Z' then Char.ofNat (c.toNat + 32) else c

/-- Case-insensitive literal prefix match returning the remainder. -/
def ciStartsWith : List Char → List Char → Option (List Char)
  | [], rest => some rest
  | _ :: _, [] => none
  | p :: ps, c :: cs =>
    if lowerAscii c = lowerAscii p then ciStartsWith ps cs else none

/-- Alternatives `Chapter\s*[0-9]+` / `Section\s*[0-9]+` of `_CHAPTER_PATTERN`
(with `re.IGNORECASE` the upper-case duplicates denote the same language),
anchored at the end of the line. -/
def chapterKeyword (kw : List Char) (s : List Char) : Bool :=
  match ciStartsWith kw s with
  | some r =>
    let r2 := r.dropWhile isPySpace
    decide (r2 ≠ []) && r2.all isAsciiDigit
  | none => false

def KANJI_DIGITS : List Char :=
  ['0', '1', '2', '3', '4', '5', '6', '7', '8', '9',
   '一', '二', '三', '四', '五', '六', '七', '八', '九', '十', '百', '千']

def CHAPTER_UNITS : List Char := ['章', '節', '編', '部', '話', '回']

/-- Alternative `第[0-9一二三四五六七八九十百千]+[章節編部話回]` of
`_CHAPTER_PATTERN`, anchored at the end of the line. -/
def chapterDai : List Char → Bool
  | c :: rest =>
    if c = '第' then
      let ns := rest.takeWhile (fun d => KANJI_DIGITS.contains d)
      decide (ns ≠ []) &&
        match rest.drop ns.length with
        | [u] => CHAPTER_UNITS.contains u
        | _ => false
    else false
  | [] => false

def CHAPTER_WORDS : List (List Char) :=
  [("はじめに".toList), ("おわりに".toList), ("まとめ".toList), ("序章".toList),
   ("終章".toList), ("目次".toList), ("索引".toList), ("参考文献".toList),
   ("付録".toList), ("あとがき".toList), ("謝辞".toList), ("著者紹介".toList)]

/-- Full match of `_CHAPTER_PATTERN` (the pattern is anchored `^(...)$` and is
applied to stripped lines, so `$` is the end of the string). -/
def chapterMatch (s : List Char) : Bool :=
  chapterDai s ||
    chapterKeyword ("chapter".toList) s ||
    chapterKeyword ("section".toList) s ||
    CHAPTER_WORDS.any (fun w => decide (s = w))

/-! ### Paragraph merging (`ocr.py`) -/

/-- `_should_break_before` of `ocr.py`. -/
def should_break_before (line : List Char) : Bool :=
  let stripped := pyStrip line
  if stripped = [] then false
  else bulletMatch stripped || numberedMatch stripped || chapterMatch stripped

/-- `_should_break_after` of `ocr.py`. -/
def should_break_after (line : List Char) : Bool :=
  let stripped := pyStrip line
  if stripped = [] then true
  else if stripped.getLast? = some '。' then true
  else chapterMatch stripped

/-- `_should_keep_line_break` of `ocr.py`. -/
def should_keep_line_break (current_line : List Char) (next_line : Option (List Char)) : Bool :=
  match next_line with
  | none => true
  | some nl =>
    let next_stripped := pyStrip nl
    if next_stripped = [] then true
    else if should_break_after current_line then true
    else if should_break_before next_stripped then true
    else false

/-- The accumulation loop of `_merge_paragraph_lines`, parametrised by the
line-break decision so that the code's decision function and the spec's can
be compared on the same loop. -/
def paraLoopWith (flush : List Char → Option (List Char) → Bool) :
    List (List Char) → List (List Char) → List (List Char)
  | current, [] => if current.isEmpty then [] else [current.flatten]
  | current, line :: rest =>
    if flush line rest.head? then
      (current ++ [line]).flatten :: paraLoopWith flush [] rest
    else
      paraLoopWith flush (current ++ [line]) rest

/-- `_merge_paragraph_lines` of `ocr.py`. -/
def merge_paragraph_lines (lines : List (List Char)) : List Char :=
  if lines.isEmpty then []
  else joinNL (paraLoopWith should_keep_line_break [] lines)

/-! ### OCR data model (`ocr.py`) -/

/-- Bounding box `(x, y, width, height)` in normalised coordinates,
origin at the bottom left. -/
structure BBox where
  x : Rat
  y : Rat
  w : Rat
  h : Rat
deriving DecidableEq, Repr

/-- One element of `OcrResults`: `(text, confidence, bbox)`. -/
structure OcrResult where
  text : List Char
  confidence : Rat
  bbox : BBox
deriving DecidableEq, Repr

def VERTICAL_THRESHOLD : Rat := 0.5
def ASPECT_RATIO_THRESHOLD : Rat := 1.2
def X_TREND_WEIGHT : Rat := 0.6
def ASPECT_RATIO_WEIGHT : Rat := 0.4
def MIN_RESULTS_FOR_DETECTION : Nat := 3
def LINE_THRESHOLD_HORIZONTAL : Rat := 0.025
def LINE_THRESHOLD_VERTICAL : Rat := 0.02

/-- `sorted(results, key=lambda r: -r[2][1])`: stable sort by descending y.
Python's sort is stable, as is `List.insertionSort`. -/
def sortByYDesc (results : List OcrResult) : List OcrResult :=
  List.insertionSort (fun a b => b.bbox.y ≤ a.bbox.y) results

/-- `sorted(results, key=lambda r: -r[2][0])`: stable sort by descending x. -/
def sortByXDesc (results : List OcrResult) : List OcrResult :=
  List.insertionSort (fun a b => b.bbox.x ≤ a.bbox.x) results

/-- `line.sort(key=lambda r: r[2][0])`: stable sort by ascending x. -/
def sortByXAsc (line : List OcrResult) : List OcrResult :=
  List.insertionSort (fun a b => a.bbox.x ≤ b.bbox.x) line

/-- `column.sort(key=lambda r: -r[2][1])`: stable sort by descending y. -/
def sortByYDescInner (column : List OcrResult) : List OcrResult :=
  List.insertionSort (fun a b => b.bbox.y ≤ a.bbox.y) column

/-- `detect_text_orientation` of `ocr.py`.  The argument is the outcome of
the OCR capability on the probe image: `none` when `recognize()` (or the
instantiation) raised, `some results` otherwise. -/
def detect_text_orientation (results? : Option (List OcrResult)) : String × Rat :=
  match results? with
  | none => ("horizontal", 0)
  | some results =>
    if results.length < MIN_RESULTS_FOR_DETECTION then ("horizontal", 0)
    else
      let sorted_by_y := sortByYDesc results
      let x_coords := sorted_by_y.map (fun r => r.bbox.x)
      let decreasing_count := (List.range (x_coords.length - 1)).countP
        (fun i => decide (x_coords.getD (i + 1) 0 < x_coords.getD i 0))
      let decreasing_ratio : Rat := (decreasing_count : Rat) / ((x_coords.length - 1 : Nat) : Rat)
      let vertical_boxes := results.countP
        (fun r => decide (r.bbox.w * ASPECT_RATIO_THRESHOLD < r.bbox.h))
      let vertical_ratio : Rat := (vertical_boxes : Rat) / (results.length : Rat)
      let combined_score := decreasing_ratio * X_TREND_WEIGHT + vertical_ratio * ASPECT_RATIO_WEIGHT
      if VERTICAL_THRESHOLD < combined_score then ("vertical", combined_score)
      else ("horizontal", 1 - combined_score)

/-- The grouping loop shared by `_group_by_line_horizontal` and
`_group_by_line_vertical`: `current_ref` is the coordinate of the first
member of the growing group. -/
def groupLoop (coord : OcrResult → Rat) (thresh : Rat) :
    Rat → List OcrResult → List OcrResult → List (List OcrResult)
  | _, current, [] => [current]
  | current_ref, current, r :: rest =>
    if |coord r - current_ref| ≤ thresh then
      groupLoop coord thresh current_ref (current ++ [r]) rest
    else
      current :: groupLoop coord thresh (coord r) [r] rest

/-- `_group_by_line_horizontal` of `ocr.py`. -/
def group_by_line_horizontal (results : List OcrResult) : List (List OcrResult) :=
  if results.isEmpty then []
  else
    match sortByYDesc results with
    | [] => []
    | r0 :: rest =>
      (groupLoop (fun r => r.bbox.y) LINE_THRESHOLD_HORIZONTAL r0.bbox.y [r0] rest).map sortByXAsc

/-- `_group_by_line_vertical` of `ocr.py`. -/
def group_by_line_vertical (results : List OcrResult) : List (List OcrResult) :=
  if results.isEmpty then []
  else
    match sortByXDesc results with
    | [] => []
    | r0 :: rest =>
      (groupLoop (fun r => r.bbox.x) LINE_THRESHOLD_VERTICAL r0.bbox.x [r0] rest).map sortByYDescInner

/-- `_merge_line_text` of `ocr.py`: concatenate the fragment texts with no
separator, then remove inter-Japanese whitespace. -/
def merge_line_text (line : List OcrResult) : List Char :=
  remove_japanese_spaces (List.flatten (line.map OcrResult.text))

/-- `recognize_text` of `ocr.py`, with the OCR capability's outcome passed
explicitly: `none` models the `except` path that re-raises `RuntimeError`,
so the function's own failure is `none` as well. -/
def recognize_text (vertical_mode : Bool) (results? : Option (List OcrResult)) :
    Option (List Char) :=
  match results? with
  | none => none
  | some results =>
    if results.isEmpty then some []
    else
      let lines := if vertical_mode then group_by_line_vertical results
                   else group_by_line_horizontal results
      some (merge_paragraph_lines (lines.map merge_line_text))

/-- `recognize_text_batch` of `ocr.py`: sequential loop over the pages; a
page whose recognition fails contributes the empty string and the loop
continues with the remaining pages. -/
def recognize_text_batch (vertical_mode : Bool)
    (pages : List (Option (List OcrResult))) : List (List Char) :=
  pages.map (fun p =>
    match recognize_text vertical_mode p with
    | some text => text
    | none => [])

/-- `KindleToPDF.create_markdown` of `main.py`, on the `ocr_results`
page-number-to-text mapping (modelled as an association list with distinct
keys): sort the page numbers, strip each page's text, skip empty pages,
split the rest into lines, and paragraph-merge the combined line list. -/
def create_markdown (ocr_results : List (Nat × List Char)) : List Char :=
  let sorted_pages := List.insertionSort (fun a b => a ≤ b) (ocr_results.map Prod.fst)
  let all_lines := sorted_pages.flatMap (fun page_num =>
    let text := pyStrip ((List.lookup page_num ocr_results).getD [])
    if text.isEmpty then [] else splitNL text)
  merge_paragraph_lines all_lines

/-! ### Spec-side definitions

The following definitions are written from the specification's and the
claims' wording, to be compared against the code embeddings above. -/

/-- The orientation verdict as described by the spec: fraction of adjacent
pairs (in descending-y order) with strictly decreasing x, fraction of tall
boxes, `score = 0.6 × decreasing + 0.4 × vertical`, verdict `vertical` iff
`score > 0.5` with confidence `score`, else `horizontal` with `1 − score`. -/
def orientationClaim (fragments : List OcrResult) : String × Rat :=
  let sorted := sortByYDesc fragments
  let pairs := sorted.zip sorted.tail
  let decreasing_fraction : Rat :=
    ((pairs.countP (fun p => decide (p.2.bbox.x < p.1.bbox.x)) : Nat) : Rat) /
      ((pairs.length : Nat) : Rat)
  let vertical_fraction : Rat :=
    ((fragments.countP (fun r => decide (r.bbox.w * (1.2 : Rat) < r.bbox.h)) : Nat) : Rat) /
      ((fragments.length : Nat) : Rat)
  let score := (0.6 : Rat) * decreasing_fraction + (0.4 : Rat) * vertical_fraction
  if (0.5 : Rat) < score then ("vertical", score) else ("horizontal", 1 - score)

/-- One step of the grouping walk as the spec phrases it: compare the next
fragment against the first member of the (last) growing group. -/
def specStep (coord : OcrResult → Rat) (thresh : Rat)
    (groups : List (List OcrResult)) (r : OcrResult) : List (List OcrResult) :=
  match groups.getLast? with
  | none => [[r]]
  | some g =>
    match g.head? with
    | none => groups.dropLast ++ [[r]]
    | some g0 =>
      if |coord r - coord g0| ≤ thresh then groups.dropLast ++ [g ++ [r]]
      else groups ++ [[r]]

/-- Horizontal grouping as described by the claim: sort by descending y,
walk with threshold 0.025 against each group's first member, then sort each
group by ascending x. -/
def group_horizontal_claim (fragments : List OcrResult) : List (List OcrResult) :=
  ((sortByYDesc fragments).foldl (specStep (fun r => r.bbox.y) 0.025) []).map sortByXAsc

/-- Vertical grouping as described by the claim: sort by descending x,
walk with threshold 0.02, then sort each group by descending y. -/
def group_vertical_claim (fragments : List OcrResult) : List (List OcrResult) :=
  ((sortByXDesc fragments).foldl (specStep (fun r => r.bbox.x) 0.02) []).map sortByYDescInner

/-- Head-of-list membership in the East-Asian class. -/
def jpHead : List Char → Bool
  | c :: _ => isJapaneseChar c
  | [] => false

/-- Whitespace removal as the spec phrases it: a maximal whitespace run is
deleted exactly when the characters immediately before and after the run
are both East-Asian; all other whitespace is kept. -/
def removeRunsAux : Option Char → List Char → List Char
  | _, [] => []
  | prev, c :: rest =>
    if isPySpace c then
      let run := c :: rest.takeWhile isPySpace
      let rest' := rest.drop (rest.takeWhile isPySpace).length
      if prevIsJP prev && jpHead rest' then removeRunsAux run.getLast? rest'
      else run ++ removeRunsAux run.getLast? rest'
    else
      c :: removeRunsAux (some c) rest
termination_by _ l => l.length
decreasing_by
  · simp only [List.length_drop, List.length_cons]
    omega
  · simp only [List.length_drop, List.length_cons]
    omega
  · simp

def removeRunsSpec (text : List Char) : List Char :=
  removeRunsAux none text

/-- The flush condition exactly as claim C4 words it: flush after a line
iff there is no next line, the next line is empty/whitespace-only, the
current line (stripped) ends with the full stop, the current line is a
chapter title, or the next line starts with a bullet/numbered/chapter
marker. -/
def shouldFlushClaim (current : List Char) (next : Option (List Char)) : Bool :=
  match next with
  | none => true
  | some nl =>
    (pyStrip nl).isEmpty ||
      decide ((pyStrip current).getLast? = some '。') ||
      chapterMatch (pyStrip current) ||
      bulletMatch (pyStrip nl) || numberedMatch (pyStrip nl) || chapterMatch (pyStrip nl)

def merge_paragraph_lines_claim (lines : List (List Char)) : List Char :=
  if lines.isEmpty then [] else joinNL (paraLoopWith shouldFlushClaim [] lines)

/-- The claim C4 flush condition amended with the one missing case: a
current line that is empty/whitespace-only also flushes. -/
def shouldFlushAmended (current : List Char) (next : Option (List Char)) : Bool :=
  match next with
  | none => true
  | some nl =>
    (pyStrip nl).isEmpty ||
      (pyStrip current).isEmpty ||
      decide ((pyStrip current).getLast? = some '。') ||
      chapterMatch (pyStrip current) ||
      bulletMatch (pyStrip nl) || numberedMatch (pyStrip nl) || chapterMatch (pyStrip nl)

def merge_paragraph_lines_amended (lines : List (List Char)) : List Char :=
  if lines.isEmpty then [] else joinNL (paraLoopWith shouldFlushAmended [] lines)

/-- Number of pages of a batch whose recognition failed.  The batch result
list returned to the caller is the only caller-visible output, so claim C5's
failure count would have to be a function of it. -/
def countFailedPages (pages : List (Option (List OcrResult))) : Nat :=
  pages.countP (fun p => p.isNone)

/-! ### Concrete inputs used by witnesses and counterexamples -/

/-- A fragment whose geometry is irrelevant (text-level tests). -/
def mkFrag (s : String) : OcrResult := ⟨s.toList, 1, ⟨0, 0, 1, 1⟩⟩

def fragsWatashi : List OcrResult :=
  [mkFrag ("わ"), mkFrag (" "), mkFrag ("た"), mkFrag (" "), mkFrag ("し")]

def fragsHello : List OcrResult :=
  [mkFrag ("Hello"), mkFrag (" "), mkFrag ("World")]

def fragsMixed : List OcrResult :=
  [mkFrag ("これは"), mkFrag (" "), mkFrag ("OCR"), mkFrag (" "), mkFrag ("テスト"),
   mkFrag (" "), mkFrag ("です")]

/-- Three fragments laid out as a vertical (right-to-left, tall-box) page. -/
def vfrag1 : OcrResult := ⟨['a'], 1, ⟨0.9, 0.9, 0.1, 0.2⟩⟩
def vfrag2 : OcrResult := ⟨['b'], 1, ⟨0.6, 0.6, 0.1, 0.2⟩⟩
def vfrag3 : OcrResult := ⟨['c'], 1, ⟨0.3, 0.3, 0.1, 0.2⟩⟩

/-- Two fragments satisfying claim C8's geometric hypotheses. -/
def cfrag1 : OcrResult := ⟨['a'], 1, ⟨0.9, 0.9, 0.1, 0.2⟩⟩
def cfrag2 : OcrResult := ⟨['b'], 1, ⟨0.5, 0.5, 0.1, 0.2⟩⟩

/-! ## Theorems -/

/-! ### Claim C7: horizontal default -/

/-- C7: with fewer than 3 fragments, or when the OCR capability fails on the
probe image, orientation detection returns exactly ("horizontal", 0.0). -/
theorem C7_horizontal_default :
    (∀ results : List OcrResult, results.length < 3 →
      detect_text_orientation (some results) = ("horizontal", 0)) ∧
    detect_text_orientation none = ("horizontal", 0) := by
  refine ⟨fun results h => ?_, rfl⟩
  simp [detect_text_orientation, MIN_RESULTS_FOR_DETECTION, h]

/-- Witness for C7 at the one-fragment input. -/
theorem C7_witness : detect_text_orientation (some [vfrag1]) = ("horizontal", 0) :=
  C7_horizontal_default.1 [vfrag1] (by decide)

/-! ### Claim C5: batch failure isolation -/

/-- C5 counterexample: the batch output (the only value returned to the
caller) does not determine the number of failed pages: a failed page and a
successful page with empty text produce identical batch results, so no
count of failed pages is reported to the caller. -/
theorem C5_counterexample :
    recognize_text_batch false [some []] = recognize_text_batch false [none] ∧
    countFailedPages [some []] ≠ countFailedPages [none] := by decide

/-- C5 amended: a failing page yields the empty string at its position, the
batch is not aborted (one entry per input page, in input order), and a
failure on one page leaves every other page's result unchanged; failures
are only logged, no count of failed pages is returned to the caller. -/
theorem C5_batch_amended (vertical_mode : Bool) (pages : List (Option (List OcrResult))) :
    (recognize_text_batch vertical_mode pages).length = pages.length ∧
    (∀ i : Nat, pages[i]? = some none →
      (recognize_text_batch vertical_mode pages)[i]? = some []) ∧
    (∀ i j : Nat, j ≠ i →
      (recognize_text_batch vertical_mode (pages.set i none))[j]? =
        (recognize_text_batch vertical_mode pages)[j]?) := by
  refine ⟨List.length_map _ _, fun i hi => ?_, fun i j hne => ?_⟩
  · simp [recognize_text_batch, List.getElem?_map, hi, recognize_text]
  · simp [recognize_text_batch, List.getElem?_map, List.getElem?_set_ne (Ne.symm hne)]

/-- Witness for C5 at concrete one-page batches. -/
theorem C5_witness :
    (recognize_text_batch false [none])[0]? = some [] ∧
    (recognize_text_batch false ([some []].set 0 none))[1]? =
      (recognize_text_batch false [some []])[1]? :=
  ⟨(C5_batch_amended false [none]).2.1 0 (by decide),
   (C5_batch_amended false [some []]).2.2 0 1 (by decide)⟩

/-! ### Claim C8: synthetic vertical page -/

/-- C8 counterexample: two fragments with height = 2 × width, width > 0 and
strictly decreasing x in strictly-descending-y order are nevertheless
classified ("horizontal", 0), because detection requires at least 3
fragments; so the claim fails as stated for every fragment set. -/
theorem C8_counterexample :
    (∀ r ∈ [cfrag1, cfrag2], r.bbox.h = 2 * r.bbox.w ∧ 0 < r.bbox.w) ∧
    List.Chain' (fun a b => b.bbox.y < a.bbox.y) (sortByYDesc [cfrag1, cfrag2]) ∧
    List.Chain' (fun a b => b.bbox.x < a.bbox.x) (sortByYDesc [cfrag1, cfrag2]) ∧
    detect_text_orientation (some [cfrag1, cfrag2]) = ("horizontal", 0) ∧
    ¬((detect_text_orientation (some [cfrag1, cfrag2])).1 = "vertical" ∧
      (0.5 : Rat) < (detect_text_orientation (some [cfrag1, cfrag2])).2) := by
  have hsort : sortByYDesc [cfrag1, cfrag2] = [cfrag1, cfrag2] := by decide
  refine ⟨by decide, ?_, ?_, by decide, by decide⟩
  · rw [hsort]
    exact List.chain'_pair.mpr (by decide)
  · rw [hsort]
    exact List.chain'_pair.mpr (by decide)

/-! ### Claim C3: inter-Japanese whitespace removal -/

/-- C3 counterexample: the mixed fragments merge to "これは OCR テストです",
not to "これはOCRテストです" as the claim states — the spaces adjacent to
the Latin run are kept, because the removal rule requires East-Asian
characters on both sides. -/
theorem C3_counterexample :
    merge_line_text fragsMixed ≠ ("これはOCRテストです".toList) ∧
    merge_line_text fragsMixed = ("これは OCR テストです".toList) := by decide

/-! ### Stripping helper lemmas -/

theorem dropWhile_head_false {α : Type} {p : α → Bool} :
    ∀ {l : List α} {a : α}, (l.dropWhile p).head? = some a → p a = false := by
  intro l
  induction l with
  | nil => intro a h; simp [List.dropWhile] at h
  | cons b t ih =>
    intro a h
    by_cases hb : p b
    · rw [List.dropWhile_cons, if_pos hb] at h
      exact ih h
    · rw [List.dropWhile_cons, if_neg hb] at h
      simp only [List.head?_cons, Option.some.injEq] at h
      subst h
      simpa using hb

theorem dropWhile_getLast?_of_ne_nil {α : Type} {p : α → Bool} {l : List α}
    (h : l.dropWhile p ≠ []) : (l.dropWhile p).getLast? = l.getLast? := by
  obtain ⟨t, ht⟩ := List.dropWhile_suffix (l := l) p
  conv_rhs => rw [← ht]
  rw [List.getLast?_append]
  cases hgl : (l.dropWhile p).getLast? with
  | some a => rfl
  | none => exact absurd (List.getLast?_eq_none_iff.mp hgl) h

theorem dropWhile_eq_self_of_head {α : Type} {p : α → Bool} {l : List α}
    (h : ∀ a, l.head? = some a → p a = false) : l.dropWhile p = l := by
  cases l with
  | nil => rfl
  | cons b t =>
    rw [List.dropWhile_cons, if_neg]
    simp [h b rfl]

theorem pyStrip_head_false {l : List Char} {a : Char}
    (h : (pyStrip l).head? = some a) : isPySpace a = false := by
  unfold pyStrip at h
  rw [List.head?_reverse] at h
  have hne : (l.dropWhile isPySpace).reverse.dropWhile isPySpace ≠ [] := by
    intro hc
    rw [hc] at h
    simp at h
  rw [dropWhile_getLast?_of_ne_nil hne, List.getLast?_reverse] at h
  exact dropWhile_head_false h

theorem pyStrip_getLast_false {l : List Char} {a : Char}
    (h : (pyStrip l).getLast? = some a) : isPySpace a = false := by
  unfold pyStrip at h
  rw [List.getLast?_reverse] at h
  exact dropWhile_head_false h

theorem pyStrip_idem (l : List Char) : pyStrip (pyStrip l) = pyStrip l := by
  have h1 : (pyStrip l).dropWhile isPySpace = pyStrip l :=
    dropWhile_eq_self_of_head (fun a ha => pyStrip_head_false ha)
  have h2 : (pyStrip l).reverse.dropWhile isPySpace = (pyStrip l).reverse :=
    dropWhile_eq_self_of_head (fun a ha => by
      rw [List.head?_reverse] at ha
      exact pyStrip_getLast_false ha)
  show (((pyStrip l).dropWhile isPySpace).reverse.dropWhile isPySpace).reverse = pyStrip l
  rw [h1, h2, List.reverse_reverse]

/-! ### Claim C4: paragraph merging -/

theorem should_break_after_eq (line : List Char) :
    should_break_after line =
      ((pyStrip line).isEmpty || decide ((pyStrip line).getLast? = some '。') ||
        chapterMatch (pyStrip line)) := by
  simp only [should_break_after]
  by_cases h0 : pyStrip line = []
  · simp [h0]
  · have hemp : (pyStrip line).isEmpty = false :=
      Bool.eq_false_iff.mpr (fun hc => h0 (List.isEmpty_iff.mp hc))
    rw [if_neg h0, hemp]
    by_cases h1 : (pyStrip line).getLast? = some '。' <;> simp [h1]

theorem should_break_before_eq {s : List Char} (hs : pyStrip s = s) :
    should_break_before s = (bulletMatch s || numberedMatch s || chapterMatch s) := by
  simp only [should_break_before]
  rw [hs]
  by_cases h0 : s = []
  · subst h0
    decide
  · rw [if_neg h0]

theorem shouldFlushAmended_eq (current nl : List Char) :
    shouldFlushAmended current (some nl) =
      ((pyStrip nl).isEmpty || should_break_after current ||
        should_break_before (pyStrip nl)) := by
  simp only [shouldFlushAmended]
  rw [should_break_after_eq, should_break_before_eq (pyStrip_idem nl)]
  simp [Bool.or_assoc]

theorem keep_eq_amended (current : List Char) (next : Option (List Char)) :
    should_keep_line_break current next = shouldFlushAmended current next := by
  cases next with
  | none => rfl
  | some nl =>
    rw [shouldFlushAmended_eq]
    simp only [should_keep_line_break]
    by_cases h1 : pyStrip nl = []
    · simp [h1]
    · have hemp : (pyStrip nl).isEmpty = false :=
        Bool.eq_false_iff.mpr (fun hc => h1 (List.isEmpty_iff.mp hc))
      cases hA : should_break_after current <;>
        cases hB : should_break_before (pyStrip nl) <;>
          simp [h1, hemp, hA, hB]

/-- C4 counterexample: on the input ["", "abc"] the code flushes after the
whitespace-only first line (output "\nabc"), while the claim's flush rules
keep accumulating (output "abc"); the claim omits the flush that
`_should_break_after` performs when the current line is empty. -/
theorem C4_counterexample :
    merge_paragraph_lines [[], ("abc".toList)] = '\n' :: ("abc".toList) ∧
    merge_paragraph_lines_claim [[], ("abc".toList)] = ("abc".toList) := by decide

/-- C4 (amended): paragraph merging flushes after a line exactly when there
is no next line, the next line is empty/whitespace-only, the current line is
empty/whitespace-only, the current line (stripped) ends with "。", the
current line is a chapter title, or the next line starts with a
bullet/numbered/chapter marker; the paragraphs are joined by single
newlines.  The three example inputs behave as the claim states. -/
theorem C4_paragraph_amended :
    (∀ lines : List (List Char),
      merge_paragraph_lines lines = merge_paragraph_lines_amended lines) ∧
    merge_paragraph_lines [("これはテストです。".toList), ("次の文です。".toList)] =
      ("これはテストです。".toList) ++ '\n' :: ("次の文です。".toList) ∧
    merge_paragraph_lines [("これは".toList), ("テストです。".toList)] =
      ("これはテストです。".toList) ∧
    merge_paragraph_lines [("本文の説明".toList), ("・項目1".toList), ("・項目2".toList)] =
      ("本文の説明".toList) ++ '\n' :: ("・項目1".toList) ++ '\n' :: ("・項目2".toList) := by
  have hfun : should_keep_line_break = shouldFlushAmended :=
    funext fun c => funext fun n => keep_eq_amended c n
  refine ⟨fun lines => ?_, by decide, by decide, by decide⟩
  simp only [merge_paragraph_lines, merge_paragraph_lines_amended, hfun]

/-! ### Claim C2: grouping as described -/

theorem foldl_specStep_eq (coord : OcrResult → Rat) (thresh : Rat) :
    ∀ (rest : List OcrResult) (acc : List (List OcrResult)) (cur : List OcrResult)
      (c0 : OcrResult), cur.head? = some c0 →
      List.foldl (specStep coord thresh) (acc ++ [cur]) rest =
        acc ++ groupLoop coord thresh (coord c0) cur rest := by
  intro rest
  induction rest with
  | nil =>
    intro acc cur c0 h
    simp [groupLoop]
  | cons r rs ih =>
    intro acc cur c0 hc
    have hlast : (acc ++ [cur]).getLast? = some cur := List.getLast?_concat _
    simp only [List.foldl_cons, groupLoop, specStep, hlast, hc, List.dropLast_concat]
    by_cases hth : |coord r - coord c0| ≤ thresh
    · rw [if_pos hth, if_pos hth]
      have hhead : (cur ++ [r]).head? = some c0 := by
        cases cur with
        | nil => simp at hc
        | cons x xs => simpa using hc
      exact ih acc (cur ++ [r]) c0 hhead
    · rw [if_neg hth, if_neg hth]
      have hrec := ih (acc ++ [cur]) [r] r rfl
      simp only [List.append_assoc] at hrec ⊢
      rw [hrec]
      simp

theorem group_horizontal_eq (results : List OcrResult) :
    group_by_line_horizontal results = group_horizontal_claim results := by
  unfold group_by_line_horizontal group_horizontal_claim
  by_cases h : results.isEmpty
  · have he : results = [] := List.isEmpty_iff.mp h
    subst he
    simp [sortByYDesc]
  · rw [if_neg (by simp [h])]
    cases hs : sortByYDesc results with
    | nil =>
      have hperm := List.perm_insertionSort (fun a b : OcrResult => b.bbox.y ≤ a.bbox.y) results
      rw [show List.insertionSort (fun a b : OcrResult => b.bbox.y ≤ a.bbox.y) results
            = sortByYDesc results from rfl, hs] at hperm
      have : results = [] := (List.perm_nil.mp hperm.symm)
      subst this
      simp at h
    | cons r0 rest =>
      have := foldl_specStep_eq (fun r => r.bbox.y) LINE_THRESHOLD_HORIZONTAL rest [] [r0] r0 rfl
      simp only [List.nil_append] at this
      have hstep : List.foldl (specStep (fun r => r.bbox.y) LINE_THRESHOLD_HORIZONTAL) [] (r0 :: rest)
          = groupLoop (fun r => r.bbox.y) LINE_THRESHOLD_HORIZONTAL r0.bbox.y [r0] rest := by
        rw [List.foldl_cons]
        exact this
      rw [show (0.025 : Rat) = LINE_THRESHOLD_HORIZONTAL from rfl, hstep]

theorem group_vertical_eq (results : List OcrResult) :
    group_by_line_vertical results = group_vertical_claim results := by
  unfold group_by_line_vertical group_vertical_claim
  by_cases h : results.isEmpty
  · have he : results = [] := List.isEmpty_iff.mp h
    subst he
    simp [sortByXDesc]
  · rw [if_neg (by simp [h])]
    cases hs : sortByXDesc results with
    | nil =>
      have hperm := List.perm_insertionSort (fun a b : OcrResult => b.bbox.x ≤ a.bbox.x) results
      rw [show List.insertionSort (fun a b : OcrResult => b.bbox.x ≤ a.bbox.x) results
            = sortByXDesc results from rfl, hs] at hperm
      have : results = [] := (List.perm_nil.mp hperm.symm)
      subst this
      simp at h
    | cons r0 rest =>
      have := foldl_specStep_eq (fun r => r.bbox.x) LINE_THRESHOLD_VERTICAL rest [] [r0] r0 rfl
      simp only [List.nil_append] at this
      have hstep : List.foldl (specStep (fun r => r.bbox.x) LINE_THRESHOLD_VERTICAL) [] (r0 :: rest)
          = groupLoop (fun r => r.bbox.x) LINE_THRESHOLD_VERTICAL r0.bbox.x [r0] rest := by
        rw [List.foldl_cons]
        exact this
      rw [show (0.02 : Rat) = LINE_THRESHOLD_VERTICAL from rfl, hstep]

/-- C2: both grouping functions implement exactly the walk the claim
describes (stable sort, new group when the coordinate differs from the
group's first member by more than the threshold, per-group reading-order
sort); empty input gives empty output, and a single fragment gives one
singleton group. -/
theorem C2_grouping_spec :
    (∀ results : List OcrResult,
      group_by_line_horizontal results = group_horizontal_claim results) ∧
    (∀ results : List OcrResult,
      group_by_line_vertical results = group_vertical_claim results) ∧
    group_by_line_horizontal [] = [] ∧ group_by_line_vertical [] = [] ∧
    (∀ r : OcrResult, group_by_line_horizontal [r] = [[r]] ∧
      group_by_line_vertical [r] = [[r]]) :=
  ⟨group_horizontal_eq, group_vertical_eq, rfl, rfl, fun _ => ⟨rfl, rfl⟩⟩

/-! ### Claim C9: grouping is a partition -/

theorem groupLoop_flatten (coord : OcrResult → Rat) (thresh : Rat) :
    ∀ (l : List OcrResult) (ref : Rat) (cur : List OcrResult),
      (groupLoop coord thresh ref cur l).flatten = cur ++ l := by
  intro l
  induction l with
  | nil =>
    intro ref cur
    simp [groupLoop]
  | cons r rs ih =>
    intro ref cur
    simp only [groupLoop]
    by_cases h : |coord r - ref| ≤ thresh
    · rw [if_pos h, ih]
      simp
    · rw [if_neg h]
      simp [ih]

theorem groupLoop_ne_nil (coord : OcrResult → Rat) (thresh : Rat) :
    ∀ (l : List OcrResult) (ref : Rat) (cur : List OcrResult),
      groupLoop coord thresh ref cur l ≠ [] := by
  intro l
  induction l with
  | nil => intro ref cur; simp [groupLoop]
  | cons r rs ih =>
    intro ref cur
    simp only [groupLoop]
    by_cases h : |coord r - ref| ≤ thresh
    · rw [if_pos h]
      exact ih ref (cur ++ [r])
    · rw [if_neg h]
      simp

theorem groupLoop_mem_ne_nil (coord : OcrResult → Rat) (thresh : Rat) :
    ∀ (l : List OcrResult) (ref : Rat) (cur : List OcrResult), cur ≠ [] →
      ∀ g ∈ groupLoop coord thresh ref cur l, g ≠ [] := by
  intro l
  induction l with
  | nil =>
    intro ref cur hcur g hg
    simp [groupLoop] at hg
    subst hg
    exact hcur
  | cons r rs ih =>
    intro ref cur hcur g hg
    simp only [groupLoop] at hg
    by_cases h : |coord r - ref| ≤ thresh
    · rw [if_pos h] at hg
      exact ih ref (cur ++ [r]) (by simp) g hg
    · rw [if_neg h] at hg
      rcases List.mem_cons.mp hg with rfl | hmem
      · exact hcur
      · exact ih (coord r) [r] (by simp) g hmem

theorem flatten_map_sort_perm (sortf : List OcrResult → List OcrResult)
    (hsort : ∀ l, (sortf l).Perm l) :
    ∀ groups : List (List OcrResult),
      ((groups.map sortf).flatten).Perm groups.flatten := by
  intro groups
  induction groups with
  | nil => simp
  | cons g gs ih =>
    simp only [List.map_cons, List.flatten_cons]
    exact (hsort g).append ih

/-- C9: for both orientations the groups are a partition of the input:
their concatenation is a permutation of the input list, every group is
non-empty, and the output is empty exactly when the input is. -/
theorem C9_grouping_partition :
    (∀ results : List OcrResult,
      ((group_by_line_horizontal results).flatten).Perm results ∧
      (∀ g ∈ group_by_line_horizontal results, g ≠ []) ∧
      (group_by_line_horizontal results = [] ↔ results = [])) ∧
    (∀ results : List OcrResult,
      ((group_by_line_vertical results).flatten).Perm results ∧
      (∀ g ∈ group_by_line_vertical results, g ≠ []) ∧
      (group_by_line_vertical results = [] ↔ results = [])) := by
  constructor
  · intro results
    unfold group_by_line_horizontal
    by_cases h : results.isEmpty
    · have he : results = [] := List.isEmpty_iff.mp h
      subst he
      simp [sortByYDesc]
    · rw [if_neg (by simp [h])]
      have hne : results ≠ [] := fun hc => by simp [hc] at h
      cases hs : sortByYDesc results with
      | nil =>
        have hperm := List.perm_insertionSort (fun a b : OcrResult => b.bbox.y ≤ a.bbox.y) results
        rw [show List.insertionSort (fun a b : OcrResult => b.bbox.y ≤ a.bbox.y) results
              = sortByYDesc results from rfl, hs] at hperm
        exact absurd (List.perm_nil.mp hperm.symm) hne
      | cons r0 rest =>
        have hperm : (r0 :: rest).Perm results := by
          have := List.perm_insertionSort (fun a b : OcrResult => b.bbox.y ≤ a.bbox.y) results
          rw [show List.insertionSort (fun a b : OcrResult => b.bbox.y ≤ a.bbox.y) results
                = sortByYDesc results from rfl, hs] at this
          exact this
        refine ⟨?_, ?_, ?_⟩
        · have h1 := flatten_map_sort_perm sortByXAsc
            (fun l => List.perm_insertionSort _ l)
            (groupLoop (fun r => r.bbox.y) LINE_THRESHOLD_HORIZONTAL r0.bbox.y [r0] rest)
          rw [groupLoop_flatten] at h1
          exact h1.trans hperm
        · intro g hg
          obtain ⟨g', hg', rfl⟩ := List.mem_map.mp hg
          have hg'ne : g' ≠ [] :=
            groupLoop_mem_ne_nil _ _ rest r0.bbox.y [r0] (by simp) g' hg'
          intro hc
          have hp : (sortByXAsc g').Perm g' :=
            List.perm_insertionSort (fun a b : OcrResult => a.bbox.x ≤ b.bbox.x) g'
          rw [hc] at hp
          exact hg'ne (List.perm_nil.mp hp.symm)
        · constructor
          · intro hc
            exact absurd (List.map_eq_nil_iff.mp hc) (groupLoop_ne_nil _ _ rest r0.bbox.y [r0])
          · intro hc
            exact absurd hc hne
  · intro results
    unfold group_by_line_vertical
    by_cases h : results.isEmpty
    · have he : results = [] := List.isEmpty_iff.mp h
      subst he
      simp [sortByXDesc]
    · rw [if_neg (by simp [h])]
      have hne : results ≠ [] := fun hc => by simp [hc] at h
      cases hs : sortByXDesc results with
      | nil =>
        have hperm := List.perm_insertionSort (fun a b : OcrResult => b.bbox.x ≤ a.bbox.x) results
        rw [show List.insertionSort (fun a b : OcrResult => b.bbox.x ≤ a.bbox.x) results
              = sortByXDesc results from rfl, hs] at hperm
        exact absurd (List.perm_nil.mp hperm.symm) hne
      | cons r0 rest =>
        have hperm : (r0 :: rest).Perm results := by
          have := List.perm_insertionSort (fun a b : OcrResult => b.bbox.x ≤ a.bbox.x) results
          rw [show List.insertionSort (fun a b : OcrResult => b.bbox.x ≤ a.bbox.x) results
                = sortByXDesc results from rfl, hs] at this
          exact this
        refine ⟨?_, ?_, ?_⟩
        · have h1 := flatten_map_sort_perm sortByYDescInner
            (fun l => List.perm_insertionSort _ l)
            (groupLoop (fun r => r.bbox.x) LINE_THRESHOLD_VERTICAL r0.bbox.x [r0] rest)
          rw [groupLoop_flatten] at h1
          exact h1.trans hperm
        · intro g hg
          obtain ⟨g', hg', rfl⟩ := List.mem_map.mp hg
          have hg'ne : g' ≠ [] :=
            groupLoop_mem_ne_nil _ _ rest r0.bbox.x [r0] (by simp) g' hg'
          intro hc
          have hp : (sortByYDescInner g').Perm g' :=
            List.perm_insertionSort (fun a b : OcrResult => b.bbox.y ≤ a.bbox.y) g'
          rw [hc] at hp
          exact hg'ne (List.perm_nil.mp hp.symm)
        · constructor
          · intro hc
            exact absurd (List.map_eq_nil_iff.mp hc) (groupLoop_ne_nil _ _ rest r0.bbox.x [r0])
          · intro hc
            exact absurd hc hne

/-- Witness for C9 at a singleton input. -/
theorem C9_witness :
    ((group_by_line_horizontal [vfrag1]).flatten).Perm [vfrag1] ∧
    ([vfrag1] : List OcrResult) ≠ [] :=
  ⟨(C9_grouping_partition.1 [vfrag1]).1,
   (C9_grouping_partition.1 [vfrag1]).2.1 [vfrag1] (by decide)⟩

/-! ### Claim C10: paragraph merging preserves line content -/

theorem paraLoopWith_flatten (flush : List Char → Option (List Char) → Bool) :
    ∀ (l : List (List Char)) (cur : List (List Char)),
      (paraLoopWith flush cur l).flatten = cur.flatten ++ l.flatten := by
  intro l
  induction l with
  | nil =>
    intro cur
    by_cases h : cur.isEmpty
    · simp [paraLoopWith, h, List.isEmpty_iff.mp h]
    · simp [paraLoopWith, h]
  | cons line rest ih =>
    intro cur
    simp only [paraLoopWith]
    by_cases h : flush line rest.head?
    · rw [if_pos h]
      simp [ih]
    · rw [if_neg h, ih]
      simp

theorem filter_joinNL (q : Char → Bool) (hq : q '\n' = false) :
    ∀ parts : List (List Char), (joinNL parts).filter q = (parts.flatten).filter q := by
  intro parts
  induction parts with
  | nil => rfl
  | cons p rest ih =>
    cases rest with
    | nil => simp [joinNL]
    | cons r t =>
      simp only [joinNL, List.filter_append, List.filter_cons, hq, List.flatten_cons] at ih ⊢
      rw [ih]
      simp [List.filter_append]

/-- C10: for lines containing no newline character, deleting all newlines
from the merged output recovers exactly the concatenation of the input
lines: paragraph merging only chooses where the paragraph breaks go. -/
theorem C10_paragraph_content (lines : List (List Char))
    (h : ∀ l ∈ lines, '\n' ∉ l) :
    (merge_paragraph_lines lines).filter (fun c => decide (c ≠ '\n')) = lines.flatten := by
  unfold merge_paragraph_lines
  by_cases he : lines.isEmpty
  · simp [List.isEmpty_iff.mp he]
  · rw [if_neg (by simp [he])]
    rw [filter_joinNL _ (by decide), paraLoopWith_flatten]
    simp only [List.flatten_nil, List.nil_append]
    apply List.filter_eq_self.mpr
    intro a ha
    obtain ⟨l, hl, hal⟩ := List.mem_flatten.mp ha
    have hnl := h l hl
    exact decide_eq_true (fun hc => hnl (hc ▸ hal))

/-- Witness for C10 at two newline-free lines. -/
theorem C10_witness :
    (merge_paragraph_lines [("ab".toList), ("cd".toList)]).filter
        (fun c => decide (c ≠ '\n')) =
      ([("ab".toList), ("cd".toList)] : List (List Char)).flatten :=
  C10_paragraph_content [("ab".toList), ("cd".toList)] (by decide)

/-! ### Claim C1: the orientation formula -/

theorem adjacent_countP_eq :
    ∀ xs : List Rat,
      ((List.range (xs.length - 1)).countP fun i =>
          decide (xs.getD (i + 1) 0 < xs.getD i 0)) =
        ((xs.zip xs.tail).countP fun p => decide (p.2 < p.1))
  | [] => rfl
  | [_] => rfl
  | a :: b :: t => by
    have ih := adjacent_countP_eq (b :: t)
    simp only [List.length_cons, Nat.add_sub_cancel, List.tail_cons] at ih ⊢
    rw [List.range_succ_eq_map, List.countP_cons, List.countP_map]
    rw [List.zip_cons_cons, List.countP_cons]
    simp only [Function.comp_def, Nat.succ_eq_add_one, List.getD_cons_succ,
      List.getD_cons_zero] at ih ⊢
    rw [ih]

theorem zip_tail_length {α : Type} (xs : List α) :
    (xs.zip xs.tail).length = xs.length - 1 := by
  rw [List.length_zip, List.length_tail]
  omega

/-- C1: on at least 3 fragments, orientation detection computes exactly the
sort/ratio/score formula stated by the claim. -/
theorem C1_orientation_formula (results : List OcrResult) (h : 3 ≤ results.length) :
    detect_text_orientation (some results) = orientationClaim results := by
  have hnot : ¬ results.length < MIN_RESULTS_FOR_DETECTION := by
    simp only [MIN_RESULTS_FOR_DETECTION]
    omega
  simp only [detect_text_orientation, orientationClaim, hnot, if_false,
    VERTICAL_THRESHOLD, X_TREND_WEIGHT, ASPECT_RATIO_WEIGHT, ASPECT_RATIO_THRESHOLD]
  have hzip : (((sortByYDesc results).map fun r => r.bbox.x).zip
        (((sortByYDesc results).map fun r => r.bbox.x).tail))
      = (((sortByYDesc results).zip (sortByYDesc results).tail).map
          (Prod.map (fun r => r.bbox.x) (fun r => r.bbox.x))) := by
    rw [← List.map_tail, List.zip_map]
  have hcnt :
      ((List.range (((sortByYDesc results).map (fun r => r.bbox.x)).length - 1)).countP
          (fun i => decide ((((sortByYDesc results).map (fun r => r.bbox.x)).getD (i + 1) 0) <
            (((sortByYDesc results).map (fun r => r.bbox.x)).getD i 0))))
        = (((sortByYDesc results).zip (sortByYDesc results).tail).countP
            (fun p => decide (p.2.bbox.x < p.1.bbox.x))) := by
    rw [adjacent_countP_eq, hzip, List.countP_map]
    rfl
  have hlen :
      (((sortByYDesc results).map (fun r => r.bbox.x)).length - 1)
        = ((sortByYDesc results).zip (sortByYDesc results).tail).length := by
    rw [zip_tail_length, List.length_map]
  rw [hcnt, hlen]
  simp only [mul_comm]

/-- Witness for C1 at a concrete 3-fragment input. -/
theorem C1_witness :
    detect_text_orientation (some [vfrag1, vfrag2, vfrag3]) =
      orientationClaim [vfrag1, vfrag2, vfrag3] :=
  C1_orientation_formula [vfrag1, vfrag2, vfrag3] (by decide)

/-! ### Claim C8 (amended): synthetic vertical page with at least 3 fragments -/

/-- C8 (amended): a fragment set of at least 3 fragments whose boxes all
satisfy height = 2 × width with width > 0, and whose x-coordinates strictly
decrease along the strictly-descending-y order, is classified vertical with
confidence above 0.5. -/
theorem C8_vertical_amended (results : List OcrResult)
    (h3 : 3 ≤ results.length)
    (hbox : ∀ r ∈ results, r.bbox.h = 2 * r.bbox.w ∧ 0 < r.bbox.w)
    (hy : List.Chain' (fun a b => b.bbox.y < a.bbox.y) (sortByYDesc results))
    (hx : List.Chain' (fun a b => b.bbox.x < a.bbox.x) (sortByYDesc results)) :
    (detect_text_orientation (some results)).1 = "vertical" ∧
    (0.5 : Rat) < (detect_text_orientation (some results)).2 := by
  have hnot : ¬ results.length < MIN_RESULTS_FOR_DETECTION := by
    simp only [MIN_RESULTS_FOR_DETECTION]
    omega
  have hslen : (sortByYDesc results).length = results.length :=
    List.length_insertionSort _ _
  have hmaplen : (((sortByYDesc results).map (fun r => r.bbox.x)).length) = results.length := by
    rw [List.length_map, hslen]
  have hgetD : ∀ j (hj : j < (sortByYDesc results).length),
      ((sortByYDesc results).map (fun r => r.bbox.x)).getD j 0 =
        ((sortByYDesc results).get ⟨j, hj⟩).bbox.x := by
    intro j hj
    rw [List.getD_eq_getElem?_getD, List.getElem?_map, List.getElem?_eq_getElem hj]
    simp
  rw [List.chain'_iff_get] at hx
  have hdec : ((List.range ((((sortByYDesc results).map (fun r => r.bbox.x)).length - 1))).countP
      (fun i => decide ((((sortByYDesc results).map (fun r => r.bbox.x)).getD (i + 1) 0) <
        (((sortByYDesc results).map (fun r => r.bbox.x)).getD i 0)))) =
      (((sortByYDesc results).map (fun r => r.bbox.x)).length - 1) := by
    have hall : ∀ i ∈ List.range ((((sortByYDesc results).map (fun r => r.bbox.x)).length - 1)),
        (fun i => decide ((((sortByYDesc results).map (fun r => r.bbox.x)).getD (i + 1) 0) <
          (((sortByYDesc results).map (fun r => r.bbox.x)).getD i 0))) i = true := by
      intro i hi
      have hi' : i < (sortByYDesc results).length - 1 := by
        have := List.mem_range.mp hi
        omega
      have h1 : i < (sortByYDesc results).length := by omega
      have h2 : i + 1 < (sortByYDesc results).length := by omega
      dsimp only
      rw [hgetD (i + 1) h2, hgetD i h1]
      exact decide_eq_true (hx i hi')
    calc ((List.range ((((sortByYDesc results).map (fun r => r.bbox.x)).length - 1))).countP
          (fun i => decide ((((sortByYDesc results).map (fun r => r.bbox.x)).getD (i + 1) 0) <
            (((sortByYDesc results).map (fun r => r.bbox.x)).getD i 0))))
        = (List.range ((((sortByYDesc results).map (fun r => r.bbox.x)).length - 1))).length :=
          List.countP_eq_length.mpr hall
      _ = (((sortByYDesc results).map (fun r => r.bbox.x)).length - 1) := List.length_range _
  have hvert : (results.countP (fun r => decide (r.bbox.w * ASPECT_RATIO_THRESHOLD < r.bbox.h)))
      = results.length := by
    apply List.countP_eq_length.mpr
    intro r hr
    have hb := hbox r hr
    apply decide_eq_true
    rw [hb.1]
    have hw := hb.2
    rw [show ASPECT_RATIO_THRESHOLD = (1.2 : Rat) from rfl]
    nlinarith
  simp only [detect_text_orientation, hnot, if_false, hdec, hvert]
  have hne1 : ((((sortByYDesc results).map (fun r => r.bbox.x)).length - 1 : Nat) : Rat) ≠ 0 := by
    rw [hmaplen]
    exact_mod_cast (by omega : results.length - 1 ≠ 0)
  have hne2 : ((results.length : Nat) : Rat) ≠ 0 := by
    exact_mod_cast (by omega : results.length ≠ 0)
  rw [div_self hne1, div_self hne2]
  norm_num [VERTICAL_THRESHOLD, X_TREND_WEIGHT, ASPECT_RATIO_WEIGHT]

/-- Witness for C8 (amended) at a concrete 3-fragment vertical layout. -/
theorem C8_witness :
    (detect_text_orientation (some [vfrag1, vfrag2, vfrag3])).1 = "vertical" ∧
    (0.5 : Rat) < (detect_text_orientation (some [vfrag1, vfrag2, vfrag3])).2 := by
  have hsort : sortByYDesc [vfrag1, vfrag2, vfrag3] = [vfrag1, vfrag2, vfrag3] := by decide
  exact C8_vertical_amended [vfrag1, vfrag2, vfrag3] (by decide) (by decide)
    (by rw [hsort]
        exact List.chain'_cons.mpr ⟨by decide, List.chain'_pair.mpr (by decide)⟩)
    (by rw [hsort]
        exact List.chain'_cons.mpr ⟨by decide, List.chain'_pair.mpr (by decide)⟩)

/-! ### Claim C6: the assembled document depends only on the mapping -/

theorem lookup_perm_of_nodupKeys :
    ∀ {m₁ m₂ : List (Nat × List Char)}, m₁.Perm m₂ →
      (m₁.map Prod.fst).Nodup → ∀ k, List.lookup k m₁ = List.lookup k m₂ := by
  intro m₁ m₂ hp
  induction hp with
  | nil => intro _ _; rfl
  | cons a t ih =>
    intro hnd k
    obtain ⟨ka, va⟩ := a
    have hnd2 := hnd
    simp only [List.map_cons] at hnd2
    have hnd' := hnd2.of_cons
    cases hka : (k == ka)
    · simp only [List.lookup, hka]
      exact ih hnd' k
    · simp [List.lookup, hka]
  | swap a b l =>
    intro hnd k
    obtain ⟨ka, va⟩ := a
    obtain ⟨kb, vb⟩ := b
    have hne : kb ≠ ka := by
      simp only [List.map_cons, List.nodup_cons, List.mem_cons, not_or] at hnd
      exact hnd.1.1
    cases hka : (k == ka) <;> cases hkb : (k == kb) <;>
      simp [List.lookup, hka, hkb]
    have h1 : k = ka := eq_of_beq hka
    have h2 : k = kb := eq_of_beq hkb
    exact absurd (h2.symm.trans h1) hne
  | trans h₁ _ ih₁ ih₂ =>
    intro hnd k
    rw [ih₁ hnd k, ih₂ (((h₁.map Prod.fst).nodup_iff).mp hnd) k]

/-- C6: the assembled markdown document is a function of the page mapping
alone — permuting the insertion/completion order of the (distinct-key)
entries leaves the document unchanged — and the empty mapping yields the
empty document. -/
theorem C6_assembler_order_invariant :
    (∀ m₁ m₂ : List (Nat × List Char), m₁.Perm m₂ → (m₁.map Prod.fst).Nodup →
      create_markdown m₁ = create_markdown m₂) ∧
    create_markdown [] = [] := by
  constructor
  · intro m₁ m₂ hp hnd
    simp only [create_markdown]
    have hkeys : List.insertionSort (fun a b => a ≤ b) (m₁.map Prod.fst)
        = List.insertionSort (fun a b => a ≤ b) (m₂.map Prod.fst) := by
      apply List.eq_of_perm_of_sorted (r := fun a b : Nat => a ≤ b)
      · exact (List.perm_insertionSort _ _).trans
          ((hp.map Prod.fst).trans (List.perm_insertionSort _ _).symm)
      · exact List.sorted_insertionSort _ _
      · exact List.sorted_insertionSort _ _
    rw [hkeys]
    congr 1
    apply List.flatMap_congr
    intro pn _
    rw [lookup_perm_of_nodupKeys hp hnd pn]
  · rfl

/-- Witness for C6 on a two-page mapping inserted in both orders. -/
theorem C6_witness :
    create_markdown [(1, ("a".toList)), (2, ("b".toList))] =
      create_markdown [(2, ("b".toList)), (1, ("a".toList))] :=
  C6_assembler_order_invariant.1 _ _ (List.Perm.swap _ _ _) (by decide)

/-! ### Claim C3 (amended): whitespace-run removal -/

theorem dropWhile_eq_drop_takeWhile {α : Type} (p : α → Bool) :
    ∀ l : List α, l.dropWhile p = l.drop (l.takeWhile p).length := by
  intro l
  induction l with
  | nil => rfl
  | cons a t ih =>
    by_cases h : p a
    · simp [List.dropWhile_cons, List.takeWhile_cons, h, ih]
    · simp [List.dropWhile_cons, List.takeWhile_cons, h]

theorem takeWhile_getElem? {α : Type} {p : α → Bool} :
    ∀ (l : List α) (j : Nat), j < (l.takeWhile p).length →
      ∃ x, l[j]? = some x ∧ p x = true := by
  intro l
  induction l with
  | nil =>
    intro j hj
    simp [List.takeWhile] at hj
  | cons a t ih =>
    intro j hj
    by_cases h : p a
    · rw [List.takeWhile_cons, if_pos h] at hj
      cases j with
      | zero => exact ⟨a, by simp, h⟩
      | succ j' =>
        obtain ⟨x, hx1, hx2⟩ := ih j' (by simpa using hj)
        exact ⟨x, by simpa using hx1, hx2⟩
    · rw [List.takeWhile_cons, if_neg h] at hj
      simp at hj

theorem removeSpacesAux_fuel :
    ∀ (fuel : Nat) (prev : Option Char) (l : List Char), l.length ≤ fuel →
      removeSpacesAux fuel prev l = removeSpacesAux l.length prev l := by
  intro fuel
  induction fuel using Nat.strong_induction_on with
  | _ fuel ih =>
    intro prev l hl
    cases l with
    | nil =>
      cases fuel <;> rfl
    | cons c rest =>
      cases fuel with
      | zero => simp at hl
      | succ f =>
        have hrest : rest.length ≤ f := by
          simp only [List.length_cons] at hl
          omega
        simp only [removeSpacesAux, List.length_cons]
        by_cases hp : prevIsJP prev
        · rw [if_pos hp, if_pos hp]
          cases hm : wsMatchLen (c :: rest) with
          | none =>
            dsimp only
            rw [ih f (by omega) (some c) rest hrest,
              ih rest.length (by omega) (some c) rest (le_refl _)]
          | some m =>
            dsimp only
            have hd : (rest.drop (m - 1)).length ≤ f := by
              rw [List.length_drop]
              omega
            have hd' : (rest.drop (m - 1)).length ≤ rest.length := by
              rw [List.length_drop]
              omega
            rw [ih f (by omega) ((c :: rest)[m - 1]?) (rest.drop (m - 1)) hd,
              ih rest.length (by omega) ((c :: rest)[m - 1]?) (rest.drop (m - 1)) hd']
        · rw [if_neg hp, if_neg hp]
          rw [ih f (by omega) (some c) rest hrest,
            ih rest.length (by omega) (some c) rest (le_refl _)]

theorem wsMatchLen_eq (c : Char) (rest : List Char) (hc : isPySpace c = true)
    (hH : ∀ x ∈ c :: rest, ¬(isPySpace x = true ∧ isJapaneseChar x = true)) :
    wsMatchLen (c :: rest) =
      (if jpHead (rest.drop ((rest.takeWhile isPySpace).length)) then
        some ((rest.takeWhile isPySpace).length + 1)
      else none) := by
  have hrun : (c :: rest).takeWhile isPySpace = c :: rest.takeWhile isPySpace := by
    rw [List.takeWhile_cons, if_pos hc]
  have hnone : ∀ i ∈ (List.range ((rest.takeWhile isPySpace).length)).reverse,
      (fun i => match (c :: rest)[i + 1]? with
        | some x => if isJapaneseChar x then some (i + 1) else none
        | none => none) i = none := by
    intro i hi
    have hilt : i < (rest.takeWhile isPySpace).length := by
      rw [List.mem_reverse] at hi
      exact List.mem_range.mp hi
    have hj : i + 1 < ((c :: rest).takeWhile isPySpace).length := by
      rw [hrun]
      simpa using hilt
    obtain ⟨x, hx1, hx2⟩ := takeWhile_getElem? (c :: rest) (i + 1) hj
    have hxmem : x ∈ c :: rest := List.getElem?_mem hx1
    have hxnjp : isJapaneseChar x = false := by
      cases hjp : isJapaneseChar x
      · rfl
      · exact absurd ⟨hx2, hjp⟩ (hH x hxmem)
    simp [hx1, hxnjp]
  have hd : (c :: rest)[(rest.takeWhile isPySpace).length + 1]? =
      (rest.drop ((rest.takeWhile isPySpace).length)).head? := by
    rw [List.head?_drop]
    simp
  unfold wsMatchLen
  rw [hrun]
  simp only [List.length_cons]
  rw [List.range_succ, List.reverse_append, List.reverse_singleton, List.singleton_append,
    List.findSome?_cons]
  cases hds : rest.drop ((rest.takeWhile isPySpace).length) with
  | nil =>
    rw [hds] at hd
    simp only [List.head?_nil] at hd
    rw [hd]
    simp only [jpHead]
    exact List.findSome?_eq_none_iff.mpr hnone
  | cons x xs =>
    rw [hds] at hd
    simp only [List.head?_cons] at hd
    rw [hd]
    cases hjx : isJapaneseChar x
    · simp only [jpHead, hjx, if_false]
      exact List.findSome?_eq_none_iff.mpr hnone
    · simp [jpHead, hjx]

theorem removeSpacesAux_ws_walk :
    ∀ (ws tail : List Char) (p : Option Char),
      prevIsJP p = false →
      (∀ x ∈ ws, isPySpace x = true ∧ isJapaneseChar x = false) →
      removeSpacesAux (ws ++ tail).length p (ws ++ tail) =
        ws ++ removeSpacesAux tail.length (ws.getLast?.or p) tail := by
  intro ws
  induction ws with
  | nil =>
    intro tail p _ _
    simp [Option.or]
  | cons w ws' ih =>
    intro tail p hp hws
    have hw := hws w (List.mem_cons_self w ws')
    simp only [List.cons_append, List.length_cons, removeSpacesAux, List.append_eq]
    rw [if_neg (by simp [hp])]
    rw [ih tail (some w) (by simp [prevIsJP, hw.2])
      (fun x hx => hws x (List.mem_cons_of_mem w hx))]
    have hjunc : ws'.getLast?.or (some w) = (w :: ws').getLast?.or p := by
      cases ws' with
      | nil => simp [Option.or]
      | cons y t =>
        rw [List.getLast?_cons_cons]
        cases hgl : (y :: t).getLast? with
        | none => exact absurd (List.getLast?_eq_none_iff.mp hgl) (by simp)
        | some z => simp [Option.or]
    rw [hjunc]

theorem removeAux_eq :
    ∀ (n : Nat) (l : List Char), l.length ≤ n →
      ∀ (p₁ p₂ : Option Char), prevIsJP p₁ = prevIsJP p₂ →
      (∀ c ∈ l, ¬(isPySpace c = true ∧ isJapaneseChar c = true)) →
      removeSpacesAux l.length p₁ l = removeRunsAux p₂ l := by
  intro n
  induction n with
  | zero =>
    intro l hl p₁ p₂ _ _
    have hnil : l = [] := List.length_eq_zero.mp (Nat.le_zero.mp hl)
    subst hnil
    rw [removeRunsAux]
    rfl
  | succ n ih =>
    intro l hl p₁ p₂ hp hH
    cases l with
    | nil =>
      rw [removeRunsAux]
      rfl
    | cons c rest =>
      have hrest : rest.length ≤ n := by
        simp only [List.length_cons] at hl
        omega
      have hHrest : ∀ x ∈ rest, ¬(isPySpace x = true ∧ isJapaneseChar x = true) :=
        fun x hx => hH x (List.mem_cons_of_mem c hx)
      by_cases hc : isPySpace c = true
      · have hcjp : isJapaneseChar c = false := by
          cases hj : isJapaneseChar c
          · rfl
          · exact absurd ⟨hc, hj⟩ (hH c (List.mem_cons_self c rest))
        have hwsall : ∀ x ∈ rest.takeWhile isPySpace,
            isPySpace x = true ∧ isJapaneseChar x = false := by
          intro x hx
          have hxws : isPySpace x = true := List.mem_takeWhile_imp hx
          have hxmem : x ∈ rest := (List.takeWhile_prefix _).subset hx
          refine ⟨hxws, ?_⟩
          cases hj : isJapaneseChar x
          · rfl
          · exact absurd ⟨hxws, hj⟩ (hHrest x hxmem)
        have hH' : ∀ x ∈ rest.drop (rest.takeWhile isPySpace).length,
            ¬(isPySpace x = true ∧ isJapaneseChar x = true) :=
          fun x hx => hHrest x (List.drop_subset _ _ hx)
        have hlen' : (rest.drop (rest.takeWhile isPySpace).length).length ≤ n := by
          rw [List.length_drop]
          omega
        have hlastflag : ∀ y, (c :: rest.takeWhile isPySpace).getLast? = some y →
            isJapaneseChar y = false := by
          intro y hy
          have hymem : y ∈ c :: rest.takeWhile isPySpace := List.mem_of_mem_getLast? hy
          rcases List.mem_cons.mp hymem with h' | h'
          · rw [h']
            exact hcjp
          · exact (hwsall y h').2
        have hml := wsMatchLen_eq c rest hc hH
        have hspec : removeRunsAux p₂ (c :: rest) =
            (if prevIsJP p₂ && jpHead (rest.drop (rest.takeWhile isPySpace).length) then
              removeRunsAux (c :: rest.takeWhile isPySpace).getLast?
                (rest.drop (rest.takeWhile isPySpace).length)
            else (c :: rest.takeWhile isPySpace) ++
              removeRunsAux (c :: rest.takeWhile isPySpace).getLast?
                (rest.drop (rest.takeWhile isPySpace).length)) := by
          rw [removeRunsAux, if_pos hc]
        have hkeep : removeSpacesAux rest.length (some c) rest =
            rest.takeWhile isPySpace ++
              removeSpacesAux (rest.drop (rest.takeWhile isPySpace).length).length
                ((rest.takeWhile isPySpace).getLast?.or (some c))
                (rest.drop (rest.takeWhile isPySpace).length) := by
          have hsplit : rest.takeWhile isPySpace ++ rest.drop (rest.takeWhile isPySpace).length
              = rest := by
            rw [← dropWhile_eq_drop_takeWhile]
            exact List.takeWhile_append_dropWhile _ _
          have hwalk := removeSpacesAux_ws_walk (rest.takeWhile isPySpace)
            (rest.drop (rest.takeWhile isPySpace).length) (some c)
            (by simp [prevIsJP, hcjp]) hwsall
          rw [hsplit] at hwalk
          exact hwalk
        have hjuncflag : prevIsJP ((rest.takeWhile isPySpace).getLast?.or (some c)) = false := by
          cases hgl : (rest.takeWhile isPySpace).getLast? with
          | none => simp [Option.or, prevIsJP, hcjp]
          | some y =>
            have hymem : y ∈ rest.takeWhile isPySpace := List.mem_of_mem_getLast? hgl
            simp [Option.or, prevIsJP, (hwsall y hymem).2]
        by_cases hflag : prevIsJP p₂ = true
        · have hflag1 : prevIsJP p₁ = true := by
            rw [hp]
            exact hflag
          by_cases hjh : jpHead (rest.drop (rest.takeWhile isPySpace).length) = true
          · simp only [List.length_cons, removeSpacesAux, hflag1, if_true]
            rw [hml, if_pos hjh]
            dsimp only
            simp only [Nat.add_sub_cancel]
            have hidx : (rest.takeWhile isPySpace).length <
                ((c :: rest).takeWhile isPySpace).length := by
              rw [List.takeWhile_cons, if_pos hc]
              simp
            obtain ⟨x, hx1, hx2⟩ :=
              takeWhile_getElem? (c :: rest) (rest.takeWhile isPySpace).length hidx
            have hxjp : isJapaneseChar x = false := by
              cases hj : isJapaneseChar x
              · rfl
              · exact absurd ⟨hx2, hj⟩ (hH x (List.getElem?_mem hx1))
            rw [hx1]
            rw [removeSpacesAux_fuel rest.length (some x)
              (rest.drop (rest.takeWhile isPySpace).length)
              (by rw [List.length_drop]; omega)]
            rw [hspec, if_pos (by rw [hflag, hjh]; rfl)]
            cases hgl : (c :: rest.takeWhile isPySpace).getLast? with
            | none => exact absurd (List.getLast?_eq_none_iff.mp hgl) (by simp)
            | some y =>
              exact ih (rest.drop (rest.takeWhile isPySpace).length) hlen'
                (some x) (some y)
                (by simp [prevIsJP, hxjp, hlastflag y hgl]) hH'
          · simp only [List.length_cons, removeSpacesAux, hflag1, if_true]
            rw [hml, if_neg hjh]
            dsimp only
            rw [hkeep]
            rw [hspec, if_neg (by simp [hjh])]
            simp only [List.cons_append]
            congr 1
            congr 1
            cases hgl : (c :: rest.takeWhile isPySpace).getLast? with
            | none => exact absurd (List.getLast?_eq_none_iff.mp hgl) (by simp)
            | some y =>
              exact ih (rest.drop (rest.takeWhile isPySpace).length) hlen'
                ((rest.takeWhile isPySpace).getLast?.or (some c)) (some y)
                (by rw [hjuncflag]; simp [prevIsJP, hlastflag y hgl]) hH'
        · have hflag2 : prevIsJP p₂ = false := Bool.eq_false_iff.mpr hflag
          have hflag1 : prevIsJP p₁ = false := by
            rw [hp]
            exact hflag2
          simp only [List.length_cons, removeSpacesAux]
          rw [if_neg (by simp [hflag1])]
          rw [hkeep]
          rw [hspec, if_neg (by simp [hflag2])]
          simp only [List.cons_append]
          congr 1
          congr 1
          cases hgl : (c :: rest.takeWhile isPySpace).getLast? with
          | none => exact absurd (List.getLast?_eq_none_iff.mp hgl) (by simp)
          | some y =>
            exact ih (rest.drop (rest.takeWhile isPySpace).length) hlen'
              ((rest.takeWhile isPySpace).getLast?.or (some c)) (some y)
              (by rw [hjuncflag]; simp [prevIsJP, hlastflag y hgl]) hH'
      · have hcf : isPySpace c = false := Bool.eq_false_iff.mpr hc
        have hml : wsMatchLen (c :: rest) = none := by
          unfold wsMatchLen
          rw [List.takeWhile_cons, if_neg (by simp [hcf])]
          rfl
        have hspec : removeRunsAux p₂ (c :: rest) = c :: removeRunsAux (some c) rest := by
          rw [removeRunsAux, if_neg (by simp [hcf])]
        rw [hspec]
        simp only [List.length_cons, removeSpacesAux]
        by_cases hp1 : prevIsJP p₁ = true
        · rw [if_pos hp1, hml]
          dsimp only
          congr 1
          exact ih rest hrest (some c) (some c) rfl hHrest
        · rw [if_neg hp1]
          congr 1
          exact ih rest hrest (some c) (some c) rfl hHrest

/-- C3 (amended): line merging concatenates the fragment texts with no
separator and removes exactly those maximal whitespace runs that lie
strictly between two East-Asian characters, for texts containing no
character that is both whitespace and East-Asian (the ideographic space
U+3000 is the only such character; on it the regex can remove a run only
partially).  The mixed example merges to "これは OCR テストです" — the
spaces adjacent to the Latin run are kept; the other examples and the
empty case are as claimed. -/
theorem C3_line_merge_amended :
    (∀ line : List OcrResult,
      (∀ c ∈ List.flatten (line.map OcrResult.text),
        ¬(isPySpace c = true ∧ isJapaneseChar c = true)) →
      merge_line_text line = removeRunsSpec (List.flatten (line.map OcrResult.text))) ∧
    merge_line_text fragsWatashi = ("わたし".toList) ∧
    merge_line_text fragsHello = ("Hello World".toList) ∧
    merge_line_text fragsMixed = ("これは OCR テストです".toList) ∧
    merge_line_text [] = [] := by
  refine ⟨fun line hH => ?_, by decide, by decide, by decide, rfl⟩
  unfold merge_line_text remove_japanese_spaces removeRunsSpec
  exact removeAux_eq (List.flatten (line.map OcrResult.text)).length
    (List.flatten (line.map OcrResult.text)) (le_refl _) none none rfl hH

/-- Witness for C3 (amended) at the わたし fragments. -/
theorem C3_witness :
    merge_line_text fragsWatashi =
      removeRunsSpec (List.flatten (fragsWatashi.map OcrResult.text)) :=
  C3_line_merge_amended.1 fragsWatashi (by decide)
